import Mathlib

/-!
Shallow embedding of the ReqStudio live-preview Markdown highlighter
(`src/core/highlighter.py`, class `LivePreviewHighlighter`) and of
`detect_srs_ids` (`src/core/utils.py`), together with theorems settling
the specification claims about them.

A line of text is a `List Char` (a Qt block's text never contains a
newline, but the embedding is total on all character lists).  The caret
position and block position are integers (`caret_pos` is initialised to
`-1`).  The cross-line fence state is an integer (Qt block states).
An annotation records one `setFormat(start, count, fmt)` call.
-/

namespace ReqStudio

/-- Character formats constructed in `LivePreviewHighlighter.__init__` and
in `_apply_heading` (`fmt_marker`, `fmt_bold`, `fmt_italic`, `fmt_code`,
`fmt_quote`, and the per-level heading format carrying its point size). -/
inductive Fmt where
  | marker : Fmt
  | bold : Fmt
  | italic : Fmt
  | code : Fmt
  | quote : Fmt
  | headingContent (ptSize : Nat) : Fmt
deriving DecidableEq, Repr

/-- One `setFormat(start, count, fmt)` call: start offset within the line,
count of characters, format. -/
abbrev Ann := Nat × Nat × Fmt

/-- The backtick character (code point 96). -/
def btick : Char := Char.ofNat 96

/-- PCRE `\s` on the characters a Qt block can contain: space, tab,
newline, vertical tab, form feed, carriage return. -/
def isWs (c : Char) : Bool :=
  c = ' ' || c = '\t' || c = '\n' || c = '\x0b' || c = '\x0c' || c = '\r'

/-- Length of the leading whitespace run of a line. -/
def countLeadingWs (t : List Char) : Nat :=
  (t.takeWhile isWs).length

/-- The `__init__` value of `self.caret_pos`. -/
def init_caret_pos : Int := -1

/-- The heading point-size table `self.h_sizes` with the `.get(level, 14)`
default. -/
def h_sizes (level : Nat) : Nat :=
  match level with
  | 1 => 22
  | 2 => 18
  | 3 => 16
  | 4 => 14
  | 5 => 13
  | 6 => 12
  | _ => 14

/-- The half-open caret test `lo <= caret_pos < hi` used by the fence,
heading, list and blockquote rules. -/
def caretInHO (c lo hi : Int) : Bool :=
  decide (lo ≤ c) && decide (c < hi)

/-- The doubly-inclusive caret test `lo <= caret_pos <= hi` used by the
bold, italic and inline-code rules in `_apply_emphasis`. -/
def caretInCl (c lo hi : Int) : Bool :=
  decide (lo ≤ c) && decide (c ≤ hi)

/-- The `caret_in_block` test of `_apply_heading`:
`caret_pos >= block_pos and caret_pos <= block_pos + len(text)`. -/
def caretInBlock (c bp : Int) (n : Nat) : Bool :=
  decide (bp ≤ c) && decide (c ≤ bp + (n : Int))

/-- Match of the fence pattern `^\s*` followed by three backticks: after
the whole leading-whitespace run, the line continues with three backticks
(`\s*` is greedy and a backtick is not whitespace, so the run consumed is
exactly the leading-whitespace run). -/
def fence_match (t : List Char) : Bool :=
  (t.drop (countLeadingWs t)).take 3 = [btick, btick, btick]

/-- Match of the heading pattern `^(\s{0,3})(#{1,6})(\s?)(.*)$`. Returns
`(indent length, number of hashes taken (at most 6), whether the optional
whitespace after the hashes was taken)`. The indent can only be the whole
leading-whitespace run, which must have length at most 3. -/
def headingMatch (t : List Char) : Option (Nat × Nat × Bool) :=
  let w := countLeadingWs t
  if w ≤ 3 then
    let run := ((t.drop w).takeWhile (fun c => c = '#')).length
    if 1 ≤ run then
      let hn := min run 6
      let sp := match t.drop (w + hn) with
        | c :: _ => isWs c
        | [] => false
      some (w, hn, sp)
    else none
  else none

/-- Match of the unordered-list pattern `^(\s{0,3})([-*])\s+(.*)$`.
Returns the indent length. -/
def ulMatch (t : List Char) : Option Nat :=
  let w := countLeadingWs t
  if w ≤ 3 then
    match t.drop w with
    | m :: c :: _ => if (m = '-' || m = '*') && isWs c then some w else none
    | _ => none
  else none

/-- Match of the ordered-list pattern `^(\s{0,3})(\d+)[\.)]\s+(.*)$`.
Returns `(indent length, digit-run length)`. -/
def olMatch (t : List Char) : Option (Nat × Nat) :=
  let w := countLeadingWs t
  if w ≤ 3 then
    let ds := ((t.drop w).takeWhile Char.isDigit).length
    if 1 ≤ ds then
      match t.drop (w + ds) with
      | p :: c :: _ => if (p = '.' || p = ')') && isWs c then some (w, ds) else none
      | _ => none
    else none
  else none

/-- Match of the blockquote pattern `^(\s{0,3})(>)\s?(.*)$`. Returns the
indent length. -/
def bqMatch (t : List Char) : Option Nat :=
  let w := countLeadingWs t
  if w ≤ 3 then
    match t.drop w with
    | c :: _ => if c = '>' then some w else none
    | _ => none
  else none

/-- Translation of `_apply_heading(text, block_pos)` with the caret
position passed explicitly. -/
def apply_heading (t : List Char) (bp c : Int) : List Ann :=
  match headingMatch t with
  | none => []
  | some (w, hn, sp) =>
    let level := min 6 hn
    let startHash := w
    let endHash := startHash + hn + (if sp then 1 else 0)
    let caretInB := caretInBlock c bp t.length
    let caretInM := caretInB && caretInHO c (bp + (startHash : Int)) (bp + (endHash : Int))
    let dims : List Ann :=
      if caretInM then [] else [(startHash, endHash - startHash, Fmt.marker)]
    let contentStart := endHash
    dims ++
      (if contentStart < t.length then
        [(contentStart, t.length - contentStart, Fmt.headingContent (h_sizes level))]
      else [])

/-- Translation of `_apply_lists(text, block_pos)`. -/
def apply_lists (t : List Char) (bp c : Int) : List Ann :=
  match ulMatch t with
  | some w =>
    let s := w
    let e := s + 2
    if caretInHO c (bp + (s : Int)) (bp + (e : Int)) then []
    else [(s, e - s, Fmt.marker)]
  | none =>
    match olMatch t with
    | some (w, ds) =>
      let s := w
      let e := s + ds + 2
      if caretInHO c (bp + (s : Int)) (bp + (e : Int)) then []
      else [(s, e - s, Fmt.marker)]
    | none => []

/-- Translation of `_apply_blockquote(text, block_pos)`. The marker-span
end checks for a literal space (`text[start+1:start+2] == ' '`) while the
captured remainder follows the regex's `\s?`. -/
def apply_blockquote (t : List Char) (bp c : Int) : List Ann :=
  match bqMatch t with
  | none => []
  | some w =>
    let s := w
    let e := s + 1 + (if t.get? (s + 1) = some ' ' then 1 else 0)
    let dims : List Ann :=
      if caretInHO c (bp + (s : Int)) (bp + (e : Int)) then []
      else [(s, e - s, Fmt.marker)]
    let spLen : Nat := match t.drop (s + 1) with
      | c :: _ => if isWs c then 1 else 0
      | [] => 0
    dims ++
      (if s + 1 + spLen < t.length then [(e, t.length - e, Fmt.quote)] else [])

/-- Lazy search for the closing `\*\*` of a bold match: at each position,
first try to close with two stars, otherwise let `.*?` absorb one more
non-newline character. Returns the match end (one past the second closing
star). -/
def findBoldEnd (t : List Char) (pos fuel : Nat) : Option Nat :=
  match fuel with
  | 0 => none
  | fuel + 1 =>
    match t.get? pos, t.get? (pos + 1) with
    | some '*', some '*' => some (pos + 2)
    | some c, _ => if c = '\n' then none else findBoldEnd t (pos + 1) fuel
    | none, _ => none

/-- Leftmost match of the bold pattern `\*\*([^*].*?)\*\*` starting at
offset `i` or later. Returns `(captured start, captured end)`. -/
def findBoldFrom (t : List Char) (i fuel : Nat) : Option (Nat × Nat) :=
  match fuel with
  | 0 => none
  | fuel + 1 =>
    match t.get? i, t.get? (i + 1), t.get? (i + 2) with
    | some '*', some '*', some c =>
      if c = '*' then findBoldFrom t (i + 1) fuel
      else
        match findBoldEnd t (i + 3) (t.length + 1) with
        | some b => some (i, b)
        | none => findBoldFrom t (i + 1) fuel
    | some _, _, _ => findBoldFrom t (i + 1) fuel
    | none, _, _ => none

/-- All matches of `rx_bold.globalMatch(text)`, in scan order. -/
def boldMatchesAux (t : List Char) (i fuel : Nat) : List (Nat × Nat) :=
  match fuel with
  | 0 => []
  | fuel + 1 =>
    match findBoldFrom t i (t.length + 1) with
    | none => []
    | some (a, b) => (a, b) :: boldMatchesAux t b fuel

/-- All matches of the bold pattern over the whole line. -/
def boldMatches (t : List Char) : List (Nat × Nat) :=
  boldMatchesAux t 0 (t.length + 1)

/-- Lazy search for the closing `\*(?!\*)` of an italic match: a star not
followed by another star closes; a star followed by a star is absorbed by
`.*?`; a newline fails. -/
def findItalicEnd (t : List Char) (pos fuel : Nat) : Option Nat :=
  match fuel with
  | 0 => none
  | fuel + 1 =>
    match t.get? pos with
    | some '*' =>
      if t.get? (pos + 1) = some '*' then findItalicEnd t (pos + 1) fuel
      else some (pos + 1)
    | some c => if c = '\n' then none else findItalicEnd t (pos + 1) fuel
    | none => none

/-- Leftmost match of the italic pattern `(?<!\*)\*([^*\n].*?)\*(?!\*)`
starting at offset `i` or later. -/
def findItalicFrom (t : List Char) (i fuel : Nat) : Option (Nat × Nat) :=
  match fuel with
  | 0 => none
  | fuel + 1 =>
    let lb : Bool := if i = 0 then true else decide (¬ t.get? (i - 1) = some '*')
    match t.get? i, t.get? (i + 1) with
    | some '*', some c =>
      if lb && decide (¬ c = '*') && decide (¬ c = '\n') then
        match findItalicEnd t (i + 2) (t.length + 1) with
        | some b => some (i, b)
        | none => findItalicFrom t (i + 1) fuel
      else findItalicFrom t (i + 1) fuel
    | some _, _ => findItalicFrom t (i + 1) fuel
    | none, _ => none

/-- All matches of `rx_italic.globalMatch(text)`, in scan order. -/
def italicMatchesAux (t : List Char) (i fuel : Nat) : List (Nat × Nat) :=
  match fuel with
  | 0 => []
  | fuel + 1 =>
    match findItalicFrom t i (t.length + 1) with
    | none => []
    | some (a, b) => (a, b) :: italicMatchesAux t b fuel

/-- All matches of the italic pattern over the whole line. -/
def italicMatches (t : List Char) : List (Nat × Nat) :=
  italicMatchesAux t 0 (t.length + 1)

/-- Leftmost match of the inline-code pattern with a backtick, one or more
characters that are neither backtick nor newline, and a closing backtick,
starting at offset `i` or later. -/
def findCodeFrom (t : List Char) (i fuel : Nat) : Option (Nat × Nat) :=
  match fuel with
  | 0 => none
  | fuel + 1 =>
    match t.get? i with
    | none => none
    | some c =>
      if c = btick then
        let r := ((t.drop (i + 1)).takeWhile (fun c => !(c = btick || c = '\n'))).length
        if 1 ≤ r && t.get? (i + 1 + r) = some btick then some (i, i + r + 2)
        else findCodeFrom t (i + 1) fuel
      else findCodeFrom t (i + 1) fuel

/-- All matches of `rx_code.globalMatch(text)`, in scan order. -/
def codeMatchesAux (t : List Char) (i fuel : Nat) : List (Nat × Nat) :=
  match fuel with
  | 0 => []
  | fuel + 1 =>
    match findCodeFrom t i (t.length + 1) with
    | none => []
    | some (a, b) => (a, b) :: codeMatchesAux t b fuel

/-- All matches of the inline-code pattern over the whole line. -/
def codeMatches (t : List Char) : List (Nat × Nat) :=
  codeMatchesAux t 0 (t.length + 1)

/-- Body of the bold loop in `_apply_emphasis` for one match `(a, b)`:
dim the two-star delimiters unless `block_pos + a <= caret_pos <=
block_pos + b`, then style the captured group bold. -/
def bold_step (bp c : Int) (m : Nat × Nat) : List Ann :=
  let a := m.1
  let b := m.2
  (if caretInCl c (bp + (a : Int)) (bp + (b : Int)) then []
   else [(a, 2, Fmt.marker), (b - 2, 2, Fmt.marker)]) ++
  [(a + 2, b - a - 4, Fmt.bold)]

/-- Body of the italic loop in `_apply_emphasis` for one match. -/
def italic_step (bp c : Int) (m : Nat × Nat) : List Ann :=
  let a := m.1
  let b := m.2
  (if caretInCl c (bp + (a : Int)) (bp + (b : Int)) then []
   else [(a, 1, Fmt.marker), (b - 1, 1, Fmt.marker)]) ++
  [(a + 1, b - a - 2, Fmt.italic)]

/-- Body of the inline-code loop in `_apply_emphasis` for one match. -/
def code_step (bp c : Int) (m : Nat × Nat) : List Ann :=
  let a := m.1
  let b := m.2
  (if caretInCl c (bp + (a : Int)) (bp + (b : Int)) then []
   else [(a, 1, Fmt.marker), (b - 1, 1, Fmt.marker)]) ++
  [(a + 1, b - a - 2, Fmt.code)]

/-- Translation of `_apply_emphasis(text, block_pos)`: the bold loop, then
the italic loop, then the inline-code loop. -/
def apply_emphasis (t : List Char) (bp c : Int) : List Ann :=
  (boldMatches t).flatMap (bold_step bp c) ++
  (italicMatches t).flatMap (italic_step bp c) ++
  (codeMatches t).flatMap (code_step bp c)

/-- Translation of `LivePreviewHighlighter.highlightBlock(text)`:
`prevState` is `previousBlockState()`, `c` is `self.caret_pos`, `bp` is
`self.currentBlock().position()`. Returns the sequence of `setFormat`
calls and the state passed to `setCurrentBlockState`. -/
def highlightBlock (t : List Char) (prevState : Int) (c bp : Int) : List Ann × Int :=
  if prevState = 1 then
    if fence_match t then
      ((0, t.length, Fmt.code) ::
        (if caretInHO c bp (bp + (t.length : Int)) then []
         else [(0, t.length, Fmt.code)]),
       0)
    else ([(0, t.length, Fmt.code)], 1)
  else
    if fence_match t then ([(0, t.length, Fmt.code)], 1)
    else
      (apply_heading t bp c ++ apply_lists t bp c ++
       apply_blockquote t bp c ++ apply_emphasis t bp c, 0)

/-- Process a list of lines in document order: thread the block state from
each line to the next and advance the block position by line length plus
one newline separator. -/
def processLinesAux (lines : List (List Char)) (s : Int) (c bp : Int) :
    List (List Ann × Int) :=
  match lines with
  | [] => []
  | t :: rest =>
    let r := highlightBlock t s c bp
    r :: processLinesAux rest r.2 c (bp + (t.length : Int) + 1)

/-- Process a whole document starting outside any fence at block position
zero. -/
def processLines (lines : List (List Char)) (c : Int) : List (List Ann × Int) :=
  processLinesAux lines 0 c 0

/-- Python truthiness-based `and` on lists: `x and y` is `x` when `x` is
empty, else `y`. -/
def py_and {α : Type} (x y : List α) : List α :=
  if x.isEmpty then x else y

/-- Python truthiness-based `or` on lists: `x or y` is `y` when `x` is
empty, else `x`. -/
def py_or {α : Type} (x y : List α) : List α :=
  if x.isEmpty then y else x

/-- Translation of `dict.fromkeys` followed by `list(...)`: insert keys in
order, ignoring a key already present. -/
def pyDictFromKeys {α : Type} [DecidableEq α] (l : List α) : List α :=
  l.foldl (fun acc x => if x ∈ acc then acc else acc ++ [x]) []

/-- Structural characterisation of keep-first deduplication: keep the
first occurrence of each element and delete its later duplicates. -/
def dedupKeepFirst {α : Type} [DecidableEq α] : List α → List α
  | [] => []
  | a :: l => a :: dedupKeepFirst (l.filter (fun x => decide (¬ x = a)))
termination_by l => l.length
decreasing_by
  simp only [List.length_cons]
  exact Nat.lt_succ_of_le (List.length_filter_le _ _)

/-- Abstract interface to Python's `re.findall`: whether a pattern string
compiles, and the (pure) case-sensitive and case-insensitive match lists
for a pattern against a text. `re.findall` raises `re.error` exactly when
the pattern does not compile. -/
structure ReFindall (α : Type) where
  compiles : String → Bool
  findallCS : String → String → List α
  findallCI : String → String → List α

/-- Translation of `detect_srs_ids(text, pattern)` from
`src/core/utils.py`: when the pattern compiles, deduplicate
`findall(pattern, text) and findall(pattern, text, IGNORECASE) or
findall(pattern, text)`; when any `findall` raises `re.error`, the
`except` clause returns the empty list. -/
def detect_srs_ids {α : Type} [DecidableEq α] (M : ReFindall α)
    (text pat : String) : List α :=
  if M.compiles pat then
    pyDictFromKeys
      (py_or (py_and (M.findallCS pat text) (M.findallCI pat text))
        (M.findallCS pat text))
  else []

/-- A concrete `ReFindall` oracle used to instantiate hypotheses of the
`detect_srs_ids` theorem on closed inputs. -/
def sampleFindall : ReFindall String where
  compiles := fun p => !(p = "[")
  findallCS := fun _ _ => ["REQ-1", "REQ-2", "REQ-1"]
  findallCI := fun _ _ => ["REQ-1", "REQ-2", "REQ-1", "req-3"]

/-- Follows the claim's wording of the fence test (claim C1): the line's
content, ignoring up to 3 leading spaces, starts with three backticks. -/
def fence_match_claimed (t : List Char) : Bool :=
  (t.drop (min (countLeadingWs t) 3)).take 3 = [btick, btick, btick]

/-- A line matches no construct at all: the fence pattern, the heading,
unordered-list, ordered-list and blockquote patterns all fail, and the
bold, italic and inline-code scans find no match. -/
def matchesNoConstruct (t : List Char) : Bool :=
  !fence_match t && (headingMatch t).isNone && (ulMatch t).isNone &&
  (olMatch t).isNone && (bqMatch t).isNone && (boldMatches t).isEmpty &&
  (italicMatches t).isEmpty && (codeMatches t).isEmpty

theorem caretInHO_shift (c bp lo hi : Int) :
    caretInHO (c - bp) lo hi = caretInHO c (bp + lo) (bp + hi) := by
  simp only [caretInHO]
  congr 1 <;> rw [decide_eq_decide] <;> omega

theorem caretInCl_shift (c bp lo hi : Int) :
    caretInCl (c - bp) lo hi = caretInCl c (bp + lo) (bp + hi) := by
  simp only [caretInCl]
  congr 1 <;> rw [decide_eq_decide] <;> omega

theorem caretInBlock_shift (c bp : Int) (n : Nat) :
    caretInBlock (c - bp) 0 n = caretInBlock c bp n := by
  simp only [caretInBlock]
  congr 1 <;> rw [decide_eq_decide] <;> omega

theorem apply_heading_shift (t : List Char) (bp c : Int) :
    apply_heading t 0 (c - bp) = apply_heading t bp c := by
  simp only [apply_heading]
  cases headingMatch t with
  | none => rfl
  | some x =>
    obtain ⟨w, hn, sp⟩ := x
    simp only [caretInBlock_shift, zero_add, caretInHO_shift]

theorem apply_lists_shift (t : List Char) (bp c : Int) :
    apply_lists t 0 (c - bp) = apply_lists t bp c := by
  simp only [apply_lists]
  cases ulMatch t with
  | some w => simp only [zero_add, caretInHO_shift]
  | none =>
    cases olMatch t with
    | some x =>
      obtain ⟨w, ds⟩ := x
      simp only [zero_add, caretInHO_shift]
    | none => rfl

theorem apply_blockquote_shift (t : List Char) (bp c : Int) :
    apply_blockquote t 0 (c - bp) = apply_blockquote t bp c := by
  simp only [apply_blockquote]
  cases bqMatch t with
  | none => rfl
  | some w => simp only [zero_add, caretInHO_shift]

theorem bold_step_shift (bp c : Int) : bold_step 0 (c - bp) = bold_step bp c := by
  funext m
  simp only [bold_step, zero_add, caretInCl_shift]

theorem italic_step_shift (bp c : Int) : italic_step 0 (c - bp) = italic_step bp c := by
  funext m
  simp only [italic_step, zero_add, caretInCl_shift]

theorem code_step_shift (bp c : Int) : code_step 0 (c - bp) = code_step bp c := by
  funext m
  simp only [code_step, zero_add, caretInCl_shift]

theorem apply_emphasis_shift (t : List Char) (bp c : Int) :
    apply_emphasis t 0 (c - bp) = apply_emphasis t bp c := by
  simp only [apply_emphasis, bold_step_shift, italic_step_shift, code_step_shift]

/-- C2: `highlightBlock` is a pure function of its four inputs — two calls
with identical inputs give equal results definitionally — and it depends
on the caret and block position only through the caret's line-relative
offset: shifting both by the block position leaves the annotation list and
outgoing state unchanged. -/
theorem highlightBlock_pure (t : List Char) (s c bp : Int) :
    highlightBlock t s c bp = highlightBlock t s c bp ∧
    highlightBlock t s c bp = highlightBlock t s (c - bp) 0 := by
  refine ⟨rfl, ?_⟩
  simp only [highlightBlock, zero_add, caretInHO_shift, add_zero,
    apply_heading_shift, apply_lists_shift, apply_blockquote_shift,
    apply_emphasis_shift]

/-- C1 (amended): for incoming fence state 0 or 1, the outgoing fence
state is the incoming state XOR the fence test, where the fence test
ignores the line's whole leading-whitespace run (the pattern is three
backticks after any amount of leading whitespace, not at most 3 spaces). -/
theorem fence_state_xor (t : List Char) (s c bp : Int) (hs : s = 0 ∨ s = 1) :
    (highlightBlock t s c bp).2 = if fence_match t then 1 - s else s := by
  rcases hs with h | h <;> subst h <;>
    by_cases hf : fence_match t <;>
      simp [highlightBlock, hf]

theorem fence_state_xor_witness :
    (highlightBlock ("```".data) 0 (-1) 0).2 = 1 := by
  have h := fence_state_xor ("```".data) 0 (-1) 0 (Or.inl rfl)
  rwa [show (if fence_match ("```".data) then (1 : Int) - 0 else 0) = 1 from by decide] at h

/-- C1 counterexample: a fence line indented by four spaces does not
satisfy the claim's fence test (which ignores at most 3 leading spaces),
yet processing it from state 0 yields outgoing state 1, not
0 XOR claim-fence-test = 0. -/
theorem fence_state_xor_claim_cex :
    fence_match_claimed ("    ```".data) = false ∧
    (highlightBlock ("    ```".data) 0 (-1) 0).2 = 1 := by
  constructor <;> decide

/-- C4: with incoming fence state 1 every produced annotation styles the
entire line as fence code, at least one such annotation is produced, no
heading, list, blockquote, emphasis or inline-code annotation appears, and
the outgoing state is 0 exactly on a closing-fence line, else 1. -/
theorem in_fence_only_code (t : List Char) (c bp : Int) :
    (∀ a ∈ (highlightBlock t 1 c bp).1, a = ((0 : Nat), t.length, Fmt.code)) ∧
    (highlightBlock t 1 c bp).1 ≠ [] ∧
    (highlightBlock t 1 c bp).2 = (if fence_match t then 0 else 1) := by
  by_cases hf : fence_match t <;>
    by_cases hc : caretInHO c bp (bp + (t.length : Int)) <;>
      simp [highlightBlock, hf, hc]

theorem in_fence_only_code_witness :
    ((0 : Nat), 5, Fmt.code) = ((0 : Nat), ("x = 1".data).length, Fmt.code) :=
  (in_fence_only_code ("x = 1".data) (-1) 0).1 (0, 5, Fmt.code) (by decide)

/-- C5: the five-line document is processed from state 0 with the caret
on no marker: the heading line dims its marker and styles its content at
level 1, the fence-open and in-fence lines are styled entirely as code
with outgoing state 1, the closing fence is styled as code with outgoing
state 0, and the list line dims its marker and annotates nothing else. -/
theorem end_to_end_scenario :
    processLines
      ["# Title".data, "```py".data, "x = 1".data, "```".data, "- item one".data]
      (-1) =
    [([(0, 2, Fmt.marker), (2, 5, Fmt.headingContent 22)], 0),
     ([(0, 5, Fmt.code)], 1),
     ([(0, 5, Fmt.code)], 1),
     ([(0, 3, Fmt.code), (0, 3, Fmt.code)], 0),
     ([(0, 2, Fmt.marker)], 0)] := by
  decide

/-- C8 (amended): processing is total by construction, and a line that
matches no construct yields zero annotations and outgoing state 0 when
processed outside a fence; inside a fence the state is likewise
unchanged, though the line is styled as fence code. -/
theorem no_construct_noop (t : List Char) (c bp : Int)
    (h : matchesNoConstruct t = true) :
    highlightBlock t 0 c bp = ([], 0) ∧ (highlightBlock t 1 c bp).2 = 1 := by
  simp only [matchesNoConstruct, Bool.and_eq_true, Bool.not_eq_true',
    Option.isNone_iff_eq_none, List.isEmpty_iff] at h
  obtain ⟨⟨⟨⟨⟨⟨⟨hf, hh⟩, hu⟩, ho⟩, hb⟩, hbm⟩, him⟩, hcm⟩ := h
  constructor
  · simp [highlightBlock, hf, apply_heading, apply_lists, apply_blockquote,
      apply_emphasis, hh, hu, ho, hb, hbm, him, hcm]
  · simp [highlightBlock, hf]

theorem no_construct_noop_witness :
    highlightBlock ("hello".data) 0 (-1) 0 = ([], 0) :=
  (no_construct_noop ("hello".data) (-1) 0 (by decide)).1

/-- C8 counterexample: the line `hello` matches no construct, yet when
processed with incoming fence state 1 it produces one annotation (the
whole line styled as fence code), not zero. -/
theorem no_construct_cex :
    matchesNoConstruct ("hello".data) = true ∧
    (highlightBlock ("hello".data) 1 (-1) 0).1 = [(0, 5, Fmt.code)] := by
  constructor <;> decide

theorem length_takeWhile_le' {p : Char → Bool} (l : List Char) :
    (l.takeWhile p).length ≤ l.length := by
  induction l with
  | nil => simp
  | cons a l ih =>
    by_cases h : p a
    · simp only [List.takeWhile_cons, h, if_true, List.length_cons]
      omega
    · simp [List.takeWhile_cons, h]

theorem countLeadingWs_le (t : List Char) : countLeadingWs t ≤ t.length :=
  length_takeWhile_le' t

theorem headingMatch_bounds (t : List Char) (w hn : Nat) (sp : Bool)
    (h : headingMatch t = some (w, hn, sp)) :
    w + hn + (if sp then 1 else 0) ≤ t.length := by
  unfold headingMatch at h
  by_cases hw : countLeadingWs t ≤ 3
  · simp only [hw, if_true] at h
    by_cases hr : 1 ≤ ((t.drop (countLeadingWs t)).takeWhile (fun c => c = '#')).length
    · simp only [hr, if_true, Option.some.injEq, Prod.mk.injEq] at h
      obtain ⟨hw', hhn, hsp⟩ := h
      subst hw'
      have h1 : hn ≤
          ((t.drop (countLeadingWs t)).takeWhile (fun c => c = '#')).length := by
        rw [← hhn]; exact Nat.min_le_left _ _
      have h2 : ((t.drop (countLeadingWs t)).takeWhile (fun c => c = '#')).length ≤
          t.length - countLeadingWs t :=
        le_trans (length_takeWhile_le' _) (le_of_eq (List.length_drop _ _))
      have h3 : countLeadingWs t ≤ t.length := countLeadingWs_le t
      by_cases hs : sp
      · rw [hs] at hsp
        rw [hhn] at hsp
        cases hd : t.drop (countLeadingWs t + hn) with
        | nil => rw [hd] at hsp; simp at hsp
        | cons ch rest =>
          have h4 : (t.drop (countLeadingWs t + hn)).length = rest.length + 1 := by
            rw [hd]; simp
          rw [List.length_drop] at h4
          simp only [hs, if_true]
          omega
      · simp only [hs, Bool.false_eq_true, if_false]
        omega
    · simp [hr] at h
  · simp [hw] at h

theorem headingMatch_head (t : List Char) (w hn : Nat) (sp : Bool)
    (h : headingMatch t = some (w, hn, sp)) :
    w = countLeadingWs t ∧ ∃ rest, t.drop w = '#' :: rest := by
  unfold headingMatch at h
  by_cases hw : countLeadingWs t ≤ 3
  · simp only [hw, if_true] at h
    by_cases hr : 1 ≤ ((t.drop (countLeadingWs t)).takeWhile (fun c => c = '#')).length
    · simp only [hr, if_true, Option.some.injEq, Prod.mk.injEq] at h
      obtain ⟨hw', _, _⟩ := h
      subst hw'
      refine ⟨rfl, ?_⟩
      cases hd : t.drop (countLeadingWs t) with
      | nil => rw [hd] at hr; simp at hr
      | cons ch rest =>
        rw [hd] at hr
        by_cases hch : ch = '#'
        · exact ⟨rest, by rw [hch]⟩
        · simp [List.takeWhile_cons, hch] at hr
    · simp [hr] at h
  · simp [hw] at h

theorem ulMatch_head (t : List Char) (w : Nat) (h : ulMatch t = some w) :
    w = countLeadingWs t ∧
      ∃ m rest, t.drop w = m :: rest ∧ (m = '-' ∨ m = '*') := by
  unfold ulMatch at h
  by_cases hw : countLeadingWs t ≤ 3
  · simp only [hw, if_true] at h
    cases hd : t.drop (countLeadingWs t) with
    | nil => rw [hd] at h; exact Option.noConfusion h
    | cons m rest =>
      rw [hd] at h
      cases rest with
      | nil => exact Option.noConfusion h
      | cons c2 rest2 =>
        by_cases hm : (m = '-' || m = '*') && isWs c2
        · simp [hm] at h
          subst h
          refine ⟨rfl, m, c2 :: rest2, hd, ?_⟩
          rcases Bool.and_eq_true _ _ |>.mp hm with ⟨h1, _⟩
          rcases Bool.or_eq_true _ _ |>.mp h1 with h2 | h2
          · exact Or.inl (of_decide_eq_true h2)
          · exact Or.inr (of_decide_eq_true h2)
        · simp [hm] at h
  · simp [hw] at h

theorem olMatch_head (t : List Char) (w ds : Nat) (h : olMatch t = some (w, ds)) :
    w = countLeadingWs t ∧
      ∃ d rest, t.drop w = d :: rest ∧ d.isDigit = true := by
  unfold olMatch at h
  by_cases hw : countLeadingWs t ≤ 3
  · simp only [hw, if_true] at h
    by_cases hds : 1 ≤ ((t.drop (countLeadingWs t)).takeWhile Char.isDigit).length
    · simp only [hds, if_true] at h
      have hwe : countLeadingWs t = w := by
        rcases hsp : t.drop (countLeadingWs t +
            ((t.drop (countLeadingWs t)).takeWhile Char.isDigit).length) with _ | ⟨p, rest⟩
        · rw [hsp] at h
          exact Option.noConfusion h
        · rw [hsp] at h
          rcases rest with _ | ⟨c2, rest2⟩
          · exact Option.noConfusion h
          · by_cases hp : (p = '.' || p = ')') && isWs c2
            · simp [hp] at h
              exact h.1
            · simp [hp] at h
      subst hwe
      refine ⟨rfl, ?_⟩
      cases hd : t.drop (countLeadingWs t) with
      | nil => rw [hd] at hds; simp at hds
      | cons d rest =>
        rw [hd] at hds
        by_cases hdd : d.isDigit
        · exact ⟨d, rest, rfl, hdd⟩
        · simp [List.takeWhile_cons, hdd] at hds
    · simp [hds] at h
  · simp [hw] at h

theorem bqMatch_head (t : List Char) (w : Nat) (h : bqMatch t = some w) :
    w = countLeadingWs t ∧ ∃ rest, t.drop w = '>' :: rest := by
  unfold bqMatch at h
  by_cases hw : countLeadingWs t ≤ 3
  · simp only [hw, if_true] at h
    cases hd : t.drop (countLeadingWs t) with
    | nil => rw [hd] at h; exact Option.noConfusion h
    | cons c rest =>
      rw [hd] at h
      by_cases hc : c = '>'
      · simp [hc] at h
        subst h
        exact ⟨rfl, rest, by rw [hd, hc]⟩
      · simp [hc] at h
  · simp [hw] at h

theorem caretInBlock_and_HO (c bp : Int) (w e len : Nat) (h : e ≤ len) :
    (caretInBlock c bp len && caretInHO c (bp + (w : Int)) (bp + (e : Int))) =
      caretInHO c (bp + (w : Int)) (bp + (e : Int)) := by
  simp only [caretInBlock, caretInHO]
  rw [Bool.eq_iff_iff]
  simp only [Bool.and_eq_true, decide_eq_true_eq]
  omega

theorem olMatch_ulMatch_none (t : List Char) (w ds : Nat)
    (hm : olMatch t = some (w, ds)) : ulMatch t = none := by
  cases hu : ulMatch t with
  | none => rfl
  | some w' =>
    exfalso
    obtain ⟨hw1, d, r1, hd1, hdig⟩ := olMatch_head t w ds hm
    obtain ⟨hw2, m, r2, hd2, hm2⟩ := ulMatch_head t w' hu
    rw [hw1] at hd1
    rw [hw2] at hd2
    rw [hd1] at hd2
    injection hd2 with he _
    subst he
    rcases hm2 with h2 | h2 <;> rw [h2] at hdig <;>
      exact absurd hdig (by decide)

theorem ul_dim_iff (t : List Char) (bp c : Int) (w : Nat)
    (hm : ulMatch t = some w) :
    (w, 2, Fmt.marker) ∈ apply_lists t bp c ↔
      ¬(bp + (w : Int) ≤ c ∧ c < bp + ((w + 2 : Nat) : Int)) := by
  simp only [apply_lists, hm]
  by_cases hc : caretInHO c (bp + (w : Int)) (bp + ((w + 2 : Nat) : Int))
  · rw [if_pos hc]
    have hc' := hc
    simp only [caretInHO, Bool.and_eq_true, decide_eq_true_eq] at hc'
    constructor
    · intro hmem
      exact absurd hmem (List.not_mem_nil _)
    · intro hAB
      exact absurd ⟨hc'.1, hc'.2⟩ hAB
  · rw [if_neg hc]
    have hc' := hc
    simp only [caretInHO, Bool.and_eq_true, decide_eq_true_eq, not_and, not_lt] at hc'
    constructor
    · intro _
      rintro ⟨h1, h2⟩
      have h3 := hc' h1
      omega
    · intro _
      simp [Nat.add_sub_cancel_left]

theorem ol_dim_iff (t : List Char) (bp c : Int) (w ds : Nat)
    (hm : olMatch t = some (w, ds)) :
    (w, ds + 2, Fmt.marker) ∈ apply_lists t bp c ↔
      ¬(bp + (w : Int) ≤ c ∧ c < bp + ((w + ds + 2 : Nat) : Int)) := by
  have hul := olMatch_ulMatch_none t w ds hm
  simp only [apply_lists, hul, hm]
  by_cases hc : caretInHO c (bp + (w : Int)) (bp + ((w + ds + 2 : Nat) : Int))
  · rw [if_pos hc]
    have hc' := hc
    simp only [caretInHO, Bool.and_eq_true, decide_eq_true_eq] at hc'
    constructor
    · intro hmem
      exact absurd hmem (List.not_mem_nil _)
    · intro hAB
      exact absurd ⟨hc'.1, hc'.2⟩ hAB
  · rw [if_neg hc]
    have hc' := hc
    simp only [caretInHO, Bool.and_eq_true, decide_eq_true_eq, not_and, not_lt] at hc'
    have harith : w + ds + 2 - w = ds + 2 := by omega
    constructor
    · intro _
      rintro ⟨h1, h2⟩
      have h3 := hc' h1
      omega
    · intro _
      simp [harith]

theorem heading_dim_iff (t : List Char) (bp c : Int) (w hn : Nat) (sp : Bool)
    (hm : headingMatch t = some (w, hn, sp)) :
    (w, hn + (if sp then 1 else 0), Fmt.marker) ∈ apply_heading t bp c ↔
      ¬(bp + (w : Int) ≤ c ∧
        c < bp + ((w + hn + (if sp then 1 else 0) : Nat) : Int)) := by
  have hb := headingMatch_bounds t w hn sp hm
  simp only [apply_heading, hm, caretInBlock_and_HO c bp w _ t.length hb]
  by_cases hc : caretInHO c (bp + (w : Int)) (bp + ((w + hn + (if sp then 1 else 0) : Nat) : Int))
  · rw [if_pos hc, List.nil_append]
    have hc' := hc
    simp only [caretInHO, Bool.and_eq_true, decide_eq_true_eq] at hc'
    constructor
    · intro hmem
      revert hmem
      split <;> intro hmem <;> simp at hmem
    · intro hAB
      exact absurd ⟨hc'.1, hc'.2⟩ hAB
  · rw [if_neg hc]
    have hc' := hc
    simp only [caretInHO, Bool.and_eq_true, decide_eq_true_eq, not_and, not_lt] at hc'
    have harith : w + hn + (if sp then 1 else 0) - w = hn + (if sp then 1 else 0) := by
      omega
    constructor
    · intro _
      rintro ⟨h1, h2⟩
      have h3 := hc' h1
      omega
    · intro _
      apply List.mem_append_left
      simp [harith]

theorem bq_dim_iff (t : List Char) (bp c : Int) (w : Nat)
    (hm : bqMatch t = some w) :
    (w, 1 + (if t.get? (w + 1) = some ' ' then 1 else 0), Fmt.marker) ∈
        apply_blockquote t bp c ↔
      ¬(bp + (w : Int) ≤ c ∧
        c < bp + ((w + 1 + (if t.get? (w + 1) = some ' ' then 1 else 0) : Nat) : Int)) := by
  simp only [apply_blockquote, hm]
  by_cases hc : caretInHO c (bp + (w : Int))
      (bp + ((w + 1 + (if t.get? (w + 1) = some ' ' then 1 else 0) : Nat) : Int))
  · rw [if_pos hc, List.nil_append]
    have hc' := hc
    simp only [caretInHO, Bool.and_eq_true, decide_eq_true_eq] at hc'
    constructor
    · intro hmem
      revert hmem
      split <;> intro hmem <;> simp at hmem
    · intro hAB
      exact absurd ⟨hc'.1, hc'.2⟩ hAB
  · rw [if_neg hc]
    have hc' := hc
    simp only [caretInHO, Bool.and_eq_true, decide_eq_true_eq, not_and, not_lt] at hc'
    have harith : w + 1 + (if t.get? (w + 1) = some ' ' then 1 else 0) - w =
        1 + (if t.get? (w + 1) = some ' ' then 1 else 0) := by omega
    constructor
    · intro _
      rintro ⟨h1, h2⟩
      have h3 := hc' h1
      omega
    · intro _
      apply List.mem_append_left
      rw [harith]
      exact List.mem_singleton.mpr rfl

/-- C3 (amended): one caret test per rule family, but not the same one —
the heading, unordered-list, ordered-list and blockquote marker dims use
the half-open test `lineStart + a <= caret < lineStart + b`, while the
bold, italic and inline-code delimiter dims use the doubly-inclusive test
`lineStart + a <= caret <= lineStart + b` over the full match span. -/
theorem caret_dim_tests :
    (∀ (t : List Char) (bp c : Int) (w hn : Nat) (sp : Bool),
      headingMatch t = some (w, hn, sp) →
      ((w, hn + (if sp then 1 else 0), Fmt.marker) ∈ apply_heading t bp c ↔
        ¬(bp + (w : Int) ≤ c ∧ c < bp + ((w + hn + (if sp then 1 else 0) : Nat) : Int)))) ∧
    (∀ (t : List Char) (bp c : Int) (w : Nat), ulMatch t = some w →
      ((w, 2, Fmt.marker) ∈ apply_lists t bp c ↔
        ¬(bp + (w : Int) ≤ c ∧ c < bp + ((w + 2 : Nat) : Int)))) ∧
    (∀ (t : List Char) (bp c : Int) (w ds : Nat), olMatch t = some (w, ds) →
      ((w, ds + 2, Fmt.marker) ∈ apply_lists t bp c ↔
        ¬(bp + (w : Int) ≤ c ∧ c < bp + ((w + ds + 2 : Nat) : Int)))) ∧
    (∀ (t : List Char) (bp c : Int) (w : Nat), bqMatch t = some w →
      ((w, 1 + (if t.get? (w + 1) = some ' ' then 1 else 0), Fmt.marker) ∈
          apply_blockquote t bp c ↔
        ¬(bp + (w : Int) ≤ c ∧
          c < bp + ((w + 1 + (if t.get? (w + 1) = some ' ' then 1 else 0) : Nat) : Int)))) ∧
    (∀ (bp c : Int) (m : Nat × Nat),
      ((m.1, 2, Fmt.marker) ∈ bold_step bp c m ↔
        ¬(bp + (m.1 : Int) ≤ c ∧ c ≤ bp + (m.2 : Int))) ∧
      ((m.1, 1, Fmt.marker) ∈ italic_step bp c m ↔
        ¬(bp + (m.1 : Int) ≤ c ∧ c ≤ bp + (m.2 : Int))) ∧
      ((m.1, 1, Fmt.marker) ∈ code_step bp c m ↔
        ¬(bp + (m.1 : Int) ≤ c ∧ c ≤ bp + (m.2 : Int)))) := by
  refine ⟨?_, ?_, ?_, ?_, ?_⟩
  · exact fun t bp c w hn sp hm => heading_dim_iff t bp c w hn sp hm
  · exact fun t bp c w hm => ul_dim_iff t bp c w hm
  · exact fun t bp c w ds hm => ol_dim_iff t bp c w ds hm
  · exact fun t bp c w hm => bq_dim_iff t bp c w hm
  · intro bp c m
    refine ⟨?_, ?_, ?_⟩ <;>
      [simp only [bold_step]; simp only [italic_step]; simp only [code_step]] <;>
      by_cases hc : caretInCl c (bp + (m.1 : Int)) (bp + (m.2 : Int))
    case pos =>
      rw [if_pos hc, List.nil_append]
      have hc' := hc
      simp only [caretInCl, Bool.and_eq_true, decide_eq_true_eq] at hc'
      constructor
      · intro hmem
        simp at hmem
      · intro hAB
        exact absurd ⟨hc'.1, hc'.2⟩ hAB
    case neg =>
      rw [if_neg hc]
      have hc' := hc
      simp only [caretInCl, Bool.and_eq_true, decide_eq_true_eq, not_and, not_le] at hc'
      constructor
      · intro _
        rintro ⟨h1, h2⟩
        have h3 := hc' h1
        omega
      · intro _
        apply List.mem_append_left
        simp
    case pos =>
      rw [if_pos hc, List.nil_append]
      have hc' := hc
      simp only [caretInCl, Bool.and_eq_true, decide_eq_true_eq] at hc'
      constructor
      · intro hmem
        simp at hmem
      · intro hAB
        exact absurd ⟨hc'.1, hc'.2⟩ hAB
    case neg =>
      rw [if_neg hc]
      have hc' := hc
      simp only [caretInCl, Bool.and_eq_true, decide_eq_true_eq, not_and, not_le] at hc'
      constructor
      · intro _
        rintro ⟨h1, h2⟩
        have h3 := hc' h1
        omega
      · intro _
        apply List.mem_append_left
        simp
    case pos =>
      rw [if_pos hc, List.nil_append]
      have hc' := hc
      simp only [caretInCl, Bool.and_eq_true, decide_eq_true_eq] at hc'
      constructor
      · intro hmem
        simp at hmem
      · intro hAB
        exact absurd ⟨hc'.1, hc'.2⟩ hAB
    case neg =>
      rw [if_neg hc]
      have hc' := hc
      simp only [caretInCl, Bool.and_eq_true, decide_eq_true_eq, not_and, not_le] at hc'
      constructor
      · intro _
        rintro ⟨h1, h2⟩
        have h3 := hc' h1
        omega
      · intro _
        apply List.mem_append_left
        simp
theorem caret_dim_tests_witness :
    ((0 : Nat), 2, Fmt.marker) ∈ apply_heading ("# Title".data) 10 9 := by
  have h := (caret_dim_tests.1 ("# Title".data) 10 9 0 1 true (by decide)).mpr
  simp only [show ((0 : Nat) + 1 + (if true then 1 else 0) : Nat) = 2 from rfl] at h
  exact h (by omega)

/-- C3 counterexample: the line with an inline-code match spanning
offsets [0,3) and the caret at absolute offset 3 (block position 0): the
caret is outside the half-open span, so the claim requires the backtick
delimiters to be dimmed, but the code's inclusive-at-the-end test
suppresses the dim and only the inner code annotation is produced. -/
theorem caret_dim_claim_cex :
    codeMatches ("`x`".data) = [(0, 3)] ∧
    caretInHO 3 0 3 = false ∧
    (highlightBlock ("`x`".data) 0 3 0).1 = [(1, 1, Fmt.code)] := by
  refine ⟨by decide, by decide, by decide⟩

theorem drop_head_eq (t : List Char) (c1 c2 : Char) (r1 r2 : List Char)
    (h1 : t.drop (countLeadingWs t) = c1 :: r1)
    (h2 : t.drop (countLeadingWs t) = c2 :: r2) : c1 = c2 := by
  rw [h1] at h2
  exact (List.cons_eq_cons.mp h2).1

/-- C6: outside a fence the annotation list is exactly the heading pass,
then the list pass, then the blockquote pass, then the emphasis pass over
the whole line (so emphasis runs regardless of which line-level rule
fired); the heading, unordered-list, ordered-list and blockquote patterns
are pairwise exclusive, so at most one line-level rule matches; heading is
applied before list, and the line `# - not a list` matches the heading
pattern while matching neither list pattern. -/
theorem line_rule_exclusive :
    (∀ (t : List Char) (c bp : Int), fence_match t = false →
      (highlightBlock t 0 c bp).1 =
        apply_heading t bp c ++ apply_lists t bp c ++ apply_blockquote t bp c ++
          apply_emphasis t bp c) ∧
    (∀ t : List Char,
      ((headingMatch t).isSome →
        ulMatch t = none ∧ olMatch t = none ∧ bqMatch t = none) ∧
      ((ulMatch t).isSome → olMatch t = none ∧ bqMatch t = none) ∧
      ((olMatch t).isSome → bqMatch t = none)) ∧
    headingMatch ("# - not a list".data) = some (0, 1, true) ∧
    ulMatch ("# - not a list".data) = none ∧
    olMatch ("# - not a list".data) = none := by
  refine ⟨?_, ?_, by decide, by decide, by decide⟩
  · intro t c bp hf
    simp [highlightBlock, hf]
  · intro t
    refine ⟨?_, ?_, ?_⟩
    · intro hh
      rw [Option.isSome_iff_exists] at hh
      obtain ⟨⟨w, hn, sp⟩, hhm⟩ := hh
      obtain ⟨hw0, r0, hd0⟩ := headingMatch_head t w hn sp hhm
      rw [hw0] at hd0
      refine ⟨?_, ?_, ?_⟩
      · cases hu : ulMatch t with
        | none => rfl
        | some w' =>
          obtain ⟨hw2, m, r2, hd2, hm2⟩ := ulMatch_head t w' hu
          rw [hw2] at hd2
          have he := drop_head_eq t '#' m r0 r2 hd0 hd2
          rcases hm2 with h2 | h2 <;> rw [h2] at he <;> exact absurd he (by decide)
      · cases ho : olMatch t with
        | none => rfl
        | some v =>
          obtain ⟨w', ds⟩ := v
          obtain ⟨hw2, d, r2, hd2, hdig⟩ := olMatch_head t w' ds ho
          rw [hw2] at hd2
          have he := drop_head_eq t '#' d r0 r2 hd0 hd2
          rw [← he] at hdig
          exact absurd hdig (by decide)
      · cases hb : bqMatch t with
        | none => rfl
        | some w' =>
          obtain ⟨hw2, r2, hd2⟩ := bqMatch_head t w' hb
          rw [hw2] at hd2
          have he := drop_head_eq t '#' '>' r0 r2 hd0 hd2
          exact absurd he (by decide)
    · intro hh
      rw [Option.isSome_iff_exists] at hh
      obtain ⟨w, hu⟩ := hh
      obtain ⟨hw0, m, r0, hd0, hm0⟩ := ulMatch_head t w hu
      rw [hw0] at hd0
      refine ⟨?_, ?_⟩
      · cases ho : olMatch t with
        | none => rfl
        | some v =>
          obtain ⟨w', ds⟩ := v
          obtain ⟨hw2, d, r2, hd2, hdig⟩ := olMatch_head t w' ds ho
          rw [hw2] at hd2
          have he := drop_head_eq t m d r0 r2 hd0 hd2
          rw [← he] at hdig
          rcases hm0 with h2 | h2 <;> rw [h2] at hdig <;>
            exact absurd hdig (by decide)
      · cases hb : bqMatch t with
        | none => rfl
        | some w' =>
          obtain ⟨hw2, r2, hd2⟩ := bqMatch_head t w' hb
          rw [hw2] at hd2
          have he := drop_head_eq t m '>' r0 r2 hd0 hd2
          rcases hm0 with h2 | h2 <;> rw [h2] at he <;> exact absurd he (by decide)
    · intro hh
      rw [Option.isSome_iff_exists] at hh
      obtain ⟨v, ho⟩ := hh
      obtain ⟨w, ds⟩ := v
      obtain ⟨hw0, d, r0, hd0, hdig⟩ := olMatch_head t w ds ho
      rw [hw0] at hd0
      cases hb : bqMatch t with
      | none => rfl
      | some w' =>
        obtain ⟨hw2, r2, hd2⟩ := bqMatch_head t w' hb
        rw [hw2] at hd2
        have he := drop_head_eq t d '>' r0 r2 hd0 hd2
        rw [he] at hdig
        exact absurd hdig (by decide)

theorem line_rule_exclusive_witness :
    (highlightBlock ("# - not a list".data) 0 (-1) 0).1 =
      apply_heading ("# - not a list".data) 0 (-1) ++
      apply_lists ("# - not a list".data) 0 (-1) ++
      apply_blockquote ("# - not a list".data) 0 (-1) ++
      apply_emphasis ("# - not a list".data) 0 (-1) :=
  line_rule_exclusive.1 ("# - not a list".data) (-1) 0 (by decide)

theorem countLeadingWs_replicate (k : Nat) (c : Char) (l : List Char)
    (hc : isWs c = false) :
    countLeadingWs (List.replicate k ' ' ++ c :: l) = k := by
  induction k with
  | zero => simp [countLeadingWs, List.takeWhile_cons, hc]
  | succ k ih =>
    unfold countLeadingWs at ih ⊢
    simp only [List.replicate_succ, List.cons_append, List.takeWhile_cons]
    simp only [show isWs ' ' = true from by decide, if_true, List.length_cons]
    omega

theorem drop_replicate_space (k : Nat) (l : List Char) :
    (List.replicate k ' ' ++ l).drop k = l := by
  have h := List.drop_left (List.replicate k ' ') l
  rwa [List.length_replicate] at h

theorem takeWhile_append_all {p : Char → Bool} (l1 : List Char) (q : Char)
    (l2 : List Char) (h1 : ∀ x ∈ l1, p x = true) (hq : p q = false) :
    (l1 ++ q :: l2).takeWhile p = l1 := by
  induction l1 with
  | nil => simp [List.takeWhile_cons, hq]
  | cons a l ih =>
    have ha : p a = true := h1 a (List.mem_cons_self a l)
    have ih' := ih (fun x hx => h1 x (List.mem_cons_of_mem a hx))
    simp [List.takeWhile_cons, ha, ih']

theorem isWs_eq_false_of_isDigit (c : Char) (h : c.isDigit = true) :
    isWs c = false := by
  by_contra hw
  rw [Bool.not_eq_false] at hw
  simp only [isWs, Bool.or_eq_true, decide_eq_true_eq] at hw
  rcases hw with ((((h1 | h1) | h1) | h1) | h1) | h1 <;> subst h1 <;>
    exact absurd h (by decide)

/-- C7: an unordered list line (at most 3 leading spaces, then `-` or `*`,
then one or more spaces, then anything) has dim span from the end of the
indent through the marker and one separating space, `[indent, indent+2)`;
an ordered list line (at most 3 leading spaces, then digits, then `.` or
`)`, then one or more spaces) has dim span `[indent, indent+digits+2)`;
in both cases the span is dimmed exactly when the caret is not within it
(half-open test). -/
theorem list_marker_spans :
    (∀ (k j : Nat) (m : Char) (rest : List Char) (bp c : Int),
      k ≤ 3 → 1 ≤ j → (m = '-' ∨ m = '*') →
      ulMatch (List.replicate k ' ' ++ m :: (List.replicate j ' ' ++ rest)) =
        some k ∧
      ((k, 2, Fmt.marker) ∈
          apply_lists (List.replicate k ' ' ++ m :: (List.replicate j ' ' ++ rest))
            bp c ↔
        ¬(bp + (k : Int) ≤ c ∧ c < bp + ((k + 2 : Nat) : Int)))) ∧
    (∀ (k j : Nat) (ds : List Char) (p : Char) (rest : List Char) (bp c : Int),
      k ≤ 3 → 1 ≤ j → ds ≠ [] → (∀ d ∈ ds, d.isDigit = true) →
      (p = '.' ∨ p = ')') →
      olMatch (List.replicate k ' ' ++ (ds ++ p :: (List.replicate j ' ' ++ rest))) =
        some (k, ds.length) ∧
      ((k, ds.length + 2, Fmt.marker) ∈
          apply_lists
            (List.replicate k ' ' ++ (ds ++ p :: (List.replicate j ' ' ++ rest)))
            bp c ↔
        ¬(bp + (k : Int) ≤ c ∧ c < bp + ((k + ds.length + 2 : Nat) : Int)))) := by
  constructor
  · intro k j m rest bp c hk hj hm
    have hmw : isWs m = false := by
      rcases hm with h | h <;> subst h <;> decide
    have hcw := countLeadingWs_replicate k m (List.replicate j ' ' ++ rest) hmw
    have hul : ulMatch (List.replicate k ' ' ++ m :: (List.replicate j ' ' ++ rest)) =
        some k := by
      simp only [ulMatch]
      rw [hcw, if_pos hk, drop_replicate_space]
      cases j with
      | zero => omega
      | succ j' =>
        simp only [List.replicate_succ, List.cons_append]
        simp
        exact ⟨hm, by decide⟩
    exact ⟨hul, ul_dim_iff _ bp c k hul⟩
  · intro k j ds p rest bp c hk hj hne hdig hp
    obtain ⟨d0, tail0, rfl⟩ : ∃ d tail, ds = d :: tail := by
      cases ds with
      | nil => exact absurd rfl hne
      | cons d tail => exact ⟨d, tail, rfl⟩
    have hd0w : isWs d0 = false :=
      isWs_eq_false_of_isDigit d0 (hdig d0 (List.mem_cons_self _ _))
    have hshape : List.replicate k ' ' ++
        ((d0 :: tail0) ++ p :: (List.replicate j ' ' ++ rest)) =
        List.replicate k ' ' ++
          (d0 :: (tail0 ++ p :: (List.replicate j ' ' ++ rest))) := by
      simp
    have hcw : countLeadingWs (List.replicate k ' ' ++
        ((d0 :: tail0) ++ p :: (List.replicate j ' ' ++ rest))) = k := by
      rw [hshape]
      exact countLeadingWs_replicate k d0 _ hd0w
    have hdropk : (List.replicate k ' ' ++
        ((d0 :: tail0) ++ p :: (List.replicate j ' ' ++ rest))).drop k =
        (d0 :: tail0) ++ p :: (List.replicate j ' ' ++ rest) :=
      drop_replicate_space k _
    have hpd : Char.isDigit p = false := by
      rcases hp with h | h <;> subst h <;> decide
    have htw : ((d0 :: tail0) ++ p :: (List.replicate j ' ' ++ rest)).takeWhile
        Char.isDigit = d0 :: tail0 :=
      takeWhile_append_all _ p _ hdig hpd
    have hlen : 1 ≤ (d0 :: tail0).length := by simp
    have hdrop2 : (List.replicate k ' ' ++
        ((d0 :: tail0) ++ p :: (List.replicate j ' ' ++ rest))).drop
          (k + (d0 :: tail0).length) =
        p :: (List.replicate j ' ' ++ rest) := by
      rw [← List.drop_drop, hdropk, List.drop_left]
    have hol : olMatch (List.replicate k ' ' ++
        ((d0 :: tail0) ++ p :: (List.replicate j ' ' ++ rest))) =
        some (k, (d0 :: tail0).length) := by
      simp only [olMatch]
      rw [hcw, if_pos hk, hdropk, htw, if_pos hlen, hdrop2]
      cases j with
      | zero => omega
      | succ j' =>
        simp only [List.replicate_succ, List.cons_append]
        simp
        exact ⟨hp, by decide⟩
    exact ⟨hol, ol_dim_iff _ bp c k (d0 :: tail0).length hol⟩

theorem list_marker_spans_witness :
    ulMatch ("- item one".data) = some 0 ∧
    ((0, 2, Fmt.marker) ∈ apply_lists ("- item one".data) 0 (-1) ↔
      ¬((0 : Int) + (0 : Nat) ≤ -1 ∧ (-1 : Int) < 0 + ((0 + 2 : Nat) : Int))) := by
  have h := list_marker_spans.1 0 1 '-' "item one".data 0 (-1)
    (by decide) (by decide) (Or.inl rfl)
  exact h

theorem dedupKeepFirst_sublist {α : Type} [DecidableEq α] :
    ∀ l : List α, List.Sublist (dedupKeepFirst l) l := by
  intro l
  generalize hn : l.length = n
  induction n using Nat.strong_induction_on generalizing l with
  | _ n ih =>
    cases l with
    | nil => simp [dedupKeepFirst]
    | cons a l =>
      rw [dedupKeepFirst]
      have hlt : (l.filter (fun x => decide (¬ x = a))).length < n := by
        have hle := List.length_filter_le (fun x => decide (¬ x = a)) l
        subst hn
        simp only [List.length_cons]
        omega
      exact ((ih _ hlt _ rfl).trans (List.filter_sublist _)).cons₂ a

theorem dedupKeepFirst_nodup {α : Type} [DecidableEq α] :
    ∀ l : List α, (dedupKeepFirst l).Nodup := by
  intro l
  generalize hn : l.length = n
  induction n using Nat.strong_induction_on generalizing l with
  | _ n ih =>
    cases l with
    | nil => simp [dedupKeepFirst]
    | cons a l =>
      rw [dedupKeepFirst]
      have hlt : (l.filter (fun x => decide (¬ x = a))).length < n := by
        have hle := List.length_filter_le (fun x => decide (¬ x = a)) l
        subst hn
        simp only [List.length_cons]
        omega
      rw [List.nodup_cons]
      refine ⟨?_, ih _ hlt _ rfl⟩
      intro hmem
      have hsub := (dedupKeepFirst_sublist (l.filter (fun x => decide (¬ x = a)))).subset
      have := List.of_mem_filter (hsub hmem)
      simp at this

theorem foldl_dedup_eq {α : Type} [DecidableEq α] :
    ∀ (l acc : List α),
      List.foldl (fun acc x => if x ∈ acc then acc else acc ++ [x]) acc l =
        acc ++ dedupKeepFirst (l.filter (fun y => decide (¬ y ∈ acc))) := by
  intro l
  induction l with
  | nil => intro acc; simp [dedupKeepFirst]
  | cons x l ih =>
    intro acc
    by_cases hx : x ∈ acc
    · simp only [List.foldl_cons, if_pos hx, List.filter_cons]
      rw [show (decide (¬ x ∈ acc)) = false by simp [hx]]
      simp only [Bool.false_eq_true, if_false]
      exact ih acc
    · simp only [List.foldl_cons, if_neg hx, List.filter_cons]
      rw [show (decide (¬ x ∈ acc)) = true by simp [hx]]
      simp only [if_true]
      rw [dedupKeepFirst]
      rw [ih (acc ++ [x])]
      rw [List.append_assoc, List.singleton_append]
      have hfilter : (l.filter (fun y => decide (¬ y ∈ acc))).filter
          (fun y => decide (¬ y = x)) =
          l.filter (fun y => decide (¬ y ∈ acc ++ [x])) := by
        rw [List.filter_filter]
        apply List.filter_congr
        intro y _
        rw [Bool.eq_iff_iff]
        simp only [Bool.and_eq_true, decide_eq_true_eq, List.mem_append,
          List.mem_singleton]
        constructor
        · rintro ⟨hy1, hy2⟩
          rintro (hy | hy)
          · exact hy2 hy
          · exact hy1 hy
        · intro hy
          exact ⟨fun he => hy (Or.inr he), fun hm => hy (Or.inl hm)⟩
      rw [hfilter]

theorem pyDictFromKeys_eq {α : Type} [DecidableEq α] (l : List α) :
    pyDictFromKeys l = dedupKeepFirst l := by
  unfold pyDictFromKeys
  rw [foldl_dedup_eq l []]
  simp

/-- C9: `detect_srs_ids` is total (the embedding is a total function);
when the pattern does not compile every `re.findall` raises and the
handler returns the empty list; the result is duplicate-free and is the
keep-first deduplication of the Python expression
`findall(p,t) and findall(p,t,I) or findall(p,t)`, hence a sublist of it
(first-occurrence order preserved); and the result is non-empty only when
the case-sensitive match list is non-empty. -/
theorem detect_srs_ids_ok {α : Type} [DecidableEq α] (M : ReFindall α)
    (text pat : String) :
    (M.compiles pat = false → detect_srs_ids M text pat = []) ∧
    (detect_srs_ids M text pat).Nodup ∧
    (M.compiles pat = true →
      detect_srs_ids M text pat =
        dedupKeepFirst
          (py_or (py_and (M.findallCS pat text) (M.findallCI pat text))
            (M.findallCS pat text))) ∧
    List.Sublist (detect_srs_ids M text pat)
      (py_or (py_and (M.findallCS pat text) (M.findallCI pat text))
        (M.findallCS pat text)) ∧
    (detect_srs_ids M text pat ≠ [] → M.findallCS pat text ≠ []) := by
  refine ⟨?_, ?_, ?_, ?_, ?_⟩
  · intro hc
    simp [detect_srs_ids, hc]
  · unfold detect_srs_ids
    by_cases hc : M.compiles pat
    · rw [if_pos hc, pyDictFromKeys_eq]
      exact dedupKeepFirst_nodup _
    · rw [if_neg hc]
      exact List.nodup_nil
  · intro hc
    simp only [detect_srs_ids, hc, if_true]
    exact pyDictFromKeys_eq _
  · unfold detect_srs_ids
    by_cases hc : M.compiles pat
    · rw [if_pos hc, pyDictFromKeys_eq]
      exact dedupKeepFirst_sublist _
    · rw [if_neg hc]
      exact List.nil_sublist _
  · intro hne hcs
    apply hne
    unfold detect_srs_ids
    by_cases hc : M.compiles pat
    · rw [if_pos hc]
      rw [show py_or (py_and (M.findallCS pat text) (M.findallCI pat text))
            (M.findallCS pat text) = [] by
          simp [py_or, py_and, hcs]]
      rfl
    · rw [if_neg hc]

theorem detect_srs_ids_ok_witness :
    detect_srs_ids sampleFindall "some text" "[" = [] :=
  (detect_srs_ids_ok sampleFindall "some text" "[").1 (by decide)

theorem caretInCl_neg_left (bp : Int) (hbp : 0 ≤ bp) (a b : Nat) :
    caretInCl (-1) (bp + (a : Int)) (bp + (b : Int)) = false := by
  simp only [caretInCl]
  have h : ¬(bp + (a : Int) ≤ -1) := by omega
  simp [h]

/-- C10: a freshly constructed `LivePreviewHighlighter` has caret
position `-1`; since every marker span has non-negative absolute bounds,
no caret-in-span test can hold before `setCaretPosition` is called, so
every marker that any rule matches is dimmed: the heading, list and
blockquote marker-dim annotations and both delimiter dims of every bold,
italic and inline-code match are always produced. -/
theorem fresh_caret_dims_all :
    init_caret_pos = -1 ∧
    (∀ (t : List Char) (bp : Int), 0 ≤ bp →
      (∀ (w hn : Nat) (sp : Bool), headingMatch t = some (w, hn, sp) →
        (w, hn + (if sp then 1 else 0), Fmt.marker) ∈
          apply_heading t bp init_caret_pos) ∧
      (∀ w : Nat, ulMatch t = some w →
        (w, 2, Fmt.marker) ∈ apply_lists t bp init_caret_pos) ∧
      (∀ w ds : Nat, olMatch t = some (w, ds) →
        (w, ds + 2, Fmt.marker) ∈ apply_lists t bp init_caret_pos) ∧
      (∀ w : Nat, bqMatch t = some w →
        (w, 1 + (if t.get? (w + 1) = some ' ' then 1 else 0), Fmt.marker) ∈
          apply_blockquote t bp init_caret_pos) ∧
      (∀ m ∈ boldMatches t,
        (m.1, 2, Fmt.marker) ∈ apply_emphasis t bp init_caret_pos ∧
        (m.2 - 2, 2, Fmt.marker) ∈ apply_emphasis t bp init_caret_pos) ∧
      (∀ m ∈ italicMatches t,
        (m.1, 1, Fmt.marker) ∈ apply_emphasis t bp init_caret_pos ∧
        (m.2 - 1, 1, Fmt.marker) ∈ apply_emphasis t bp init_caret_pos) ∧
      (∀ m ∈ codeMatches t,
        (m.1, 1, Fmt.marker) ∈ apply_emphasis t bp init_caret_pos ∧
        (m.2 - 1, 1, Fmt.marker) ∈ apply_emphasis t bp init_caret_pos)) := by
  have hi : init_caret_pos = -1 := rfl
  refine ⟨hi, ?_⟩
  intro t bp hbp
  simp only [hi]
  refine ⟨?_, ?_, ?_, ?_, ?_, ?_, ?_⟩
  · intro w hn sp hm
    refine (heading_dim_iff t bp (-1) w hn sp hm).mpr ?_
    rintro ⟨h1, _⟩
    have : (0 : Int) ≤ (w : Int) := Int.ofNat_nonneg w
    omega
  · intro w hm
    refine (ul_dim_iff t bp (-1) w hm).mpr ?_
    rintro ⟨h1, _⟩
    have : (0 : Int) ≤ (w : Int) := Int.ofNat_nonneg w
    omega
  · intro w ds hm
    refine (ol_dim_iff t bp (-1) w ds hm).mpr ?_
    rintro ⟨h1, _⟩
    have : (0 : Int) ≤ (w : Int) := Int.ofNat_nonneg w
    omega
  · intro w hm
    refine (bq_dim_iff t bp (-1) w hm).mpr ?_
    rintro ⟨h1, _⟩
    have : (0 : Int) ≤ (w : Int) := Int.ofNat_nonneg w
    omega
  · intro m hm
    have hcl := caretInCl_neg_left bp hbp m.1 m.2
    constructor
    · apply List.mem_append_left
      apply List.mem_append_left
      exact List.mem_flatMap.mpr ⟨m, hm, by simp [bold_step, hcl]⟩
    · apply List.mem_append_left
      apply List.mem_append_left
      exact List.mem_flatMap.mpr ⟨m, hm, by simp [bold_step, hcl]⟩
  · intro m hm
    have hcl := caretInCl_neg_left bp hbp m.1 m.2
    constructor
    · apply List.mem_append_left
      apply List.mem_append_right
      exact List.mem_flatMap.mpr ⟨m, hm, by simp [italic_step, hcl]⟩
    · apply List.mem_append_left
      apply List.mem_append_right
      exact List.mem_flatMap.mpr ⟨m, hm, by simp [italic_step, hcl]⟩
  · intro m hm
    have hcl := caretInCl_neg_left bp hbp m.1 m.2
    constructor
    · apply List.mem_append_right
      exact List.mem_flatMap.mpr ⟨m, hm, by simp [code_step, hcl]⟩
    · apply List.mem_append_right
      exact List.mem_flatMap.mpr ⟨m, hm, by simp [code_step, hcl]⟩

theorem fresh_caret_dims_all_witness :
    ((0 : Nat), 2, Fmt.marker) ∈
      apply_lists ("- item one".data) 0 init_caret_pos :=
  ((fresh_caret_dims_all.2 ("- item one".data) 0 (by decide)).2.1) 0 (by decide)

end ReqStudio
